import Mathlib

/-!
Verification of the ViewHtml template processor (src/src/ViewHtml.ts).

Strings of the TypeScript source are modelled as `List Char`.  The two
regex-driven replacement passes of `interpret` (loop expansion with
`@for:<name>\x7b<body>\x7d`, then plain `<marker><word>` substitution) and the
single replacement pass of `translate` are embedded as left-to-right
scanners.  The scanners are written with an explicit fuel argument so that
they are structurally recursive and evaluate inside the kernel; the fuel is
instantiated with the length of the input, which is always sufficient since
every step consumes at least one input character.

The spec-side decompositions `tokenize` (document into literal characters
and tokens) and `loopSplit` (document into literal characters and loop
blocks) follow the specification's description of the token and loop-block
syntax; theorems connect the source-derived scanners to these
decompositions.
-/

namespace ViewHtmlModel

/-- Word characters, mirroring the JavaScript regex class `\w`,
i.e. `[A-Za-z0-9_]`. -/
def isWordChar (c : Char) : Bool :=
  ('a' ≤ c && c ≤ 'z') || ('A' ≤ c && c ≤ 'Z') || ('0' ≤ c && c ≤ '9') || c == '_'

/-- Test whether `pat` is an initial segment of `l`. -/
def begins : List Char → List Char → Bool
  | [], _ => true
  | _ :: _, [] => false
  | p :: ps, c :: cs => p == c && begins ps cs

/-- Test whether `pat` occurs as a contiguous segment of `l`. -/
def occurs (pat : List Char) : List Char → Bool
  | [] => begins pat []
  | c :: cs => begins pat (c :: cs) || occurs pat cs

/-- Take the maximal run of word characters at the front of the input,
returning the run and the remainder.  This models the greedy regex
fragment `(\w+)` (together with emptiness of the run signalling a failed
match). -/
def takeWord : List Char → List Char × List Char
  | [] => ([], [])
  | c :: cs =>
    if isWordChar c then
      let t := takeWord cs
      (c :: t.1, t.2)
    else ([], c :: cs)

/-- Split the input at the first closing brace, returning the part before
it and the part after it.  This models the lazy regex fragment
`([\s\S]*?)\}`:  the body of a loop block extends to the first closing
brace.  `none` means no closing brace exists, i.e. the loop pattern fails
to match. -/
def splitBrace : List Char → Option (List Char × List Char)
  | [] => none
  | c :: cs =>
    if c = '}' then some ([], cs)
    else
      match splitBrace cs with
      | some t => some (c :: t.1, t.2)
      | none => none

/-- First-match association-list lookup, modelling JavaScript own-property
access `key in obj ? obj[key] : ...` on object literals (prototype-chain
inherited properties are not modelled). -/
def lookupKV {α : Type} : List (List Char × α) → List Char → Option α
  | [], _ => none
  | (k, v) :: rest, key => if k = key then some v else lookupKV rest key

/-- A value of the data mapping passed to `interpret`: either a plain text
value (non-string primitives are modelled after their coercion to text) or
an array of records, each record an association list of field name to text
value. -/
inductive Val where
  | str : List Char → Val
  | arr : List (List (List Char × List Char)) → Val
deriving DecidableEq, Repr

/-- The data mapping parameter of `interpret`. -/
abbrev Data := List (List Char × Val)

/-- A translation dictionary: language code to (token name to translated
text). -/
abbrev TDict := List (List Char × List (List Char × List Char))

/-- The literal characters of the loop marker `@for:`. -/
def forMarker : List Char := ['@', 'f', 'o', 'r', ':']

/-- Fueled scanner for one global regex-replace pass with the token pattern
(marker followed by `(\w+)`), as built by the source in `interpret`
(simple replacements), inside loop bodies, and in `translate`.  At each
position: if the marker matches and is followed by a nonempty word run,
the callback result `f word` replaces the whole match (`none` keeps the
match literally, as the source callbacks return the match unchanged);
otherwise one character is emitted and scanning continues.  Replacement
text is never rescanned, matching `String.prototype.replace`. -/
def substTokensF (pre : List Char) (f : List Char → Option (List Char)) :
    Nat → List Char → List Char
  | _, [] => []
  | 0, l => l
  | fuel + 1, c :: cs =>
    if begins pre (c :: cs) then
      if (takeWord ((c :: cs).drop pre.length)).1 = [] then
        c :: substTokensF pre f fuel cs
      else
        match f (takeWord ((c :: cs).drop pre.length)).1 with
        | some v => v ++ substTokensF pre f fuel (takeWord ((c :: cs).drop pre.length)).2
        | none =>
          pre ++ (takeWord ((c :: cs).drop pre.length)).1
            ++ substTokensF pre f fuel (takeWord ((c :: cs).drop pre.length)).2
    else c :: substTokensF pre f fuel cs

/-- One global token-replacement pass over the whole input. -/
def substTokens (pre : List Char) (f : List Char → Option (List Char))
    (l : List Char) : List Char :=
  substTokensF pre f l.length l

/-- A piece of the token decomposition of a document: a literal character
or a token (word following the marker). -/
inductive Piece where
  | lit : Char → Piece
  | tok : List Char → Piece
deriving DecidableEq, Repr

/-- Fueled token decomposition of a document, following the
specification's token syntax: a token is a maximal nonempty run of word
characters immediately following a marker occurrence; scanning is
left-to-right and non-overlapping. -/
def tokenizeF (pre : List Char) : Nat → List Char → List Piece
  | _, [] => []
  | 0, l => l.map Piece.lit
  | fuel + 1, c :: cs =>
    if begins pre (c :: cs) then
      if (takeWord ((c :: cs).drop pre.length)).1 = [] then
        Piece.lit c :: tokenizeF pre fuel cs
      else
        Piece.tok (takeWord ((c :: cs).drop pre.length)).1
          :: tokenizeF pre fuel (takeWord ((c :: cs).drop pre.length)).2
    else Piece.lit c :: tokenizeF pre fuel cs

/-- Token decomposition of a whole document. -/
def tokenize (pre : List Char) (l : List Char) : List Piece :=
  tokenizeF pre l.length l

/-- Spec-side rendering of one piece under a replacement callback: tokens
whose word the callback resolves are replaced by the resolved text, other
tokens are kept literally (marker included), literal characters are kept. -/
def renderPiece (pre : List Char) (f : List Char → Option (List Char)) :
    Piece → List Char
  | Piece.lit c => [c]
  | Piece.tok w =>
    match f w with
    | some v => v
    | none => pre ++ w

/-- The original text of one piece of the token decomposition. -/
def origPiece (pre : List Char) : Piece → List Char
  | Piece.lit c => [c]
  | Piece.tok w => pre ++ w

/-- Replacement callback of the plain-substitution phase of `interpret`:
a token is replaced exactly when its word is a key of the data mapping
bound to a non-array value. -/
def plainF (data : Data) (w : List Char) : Option (List Char) :=
  match lookupKV data w with
  | some (Val.str v) => some v
  | _ => none

/-- Replacement callback used inside a loop body for one array record:
a token is replaced exactly when its word is a field of the record. -/
def itemF (item : List (List Char × List Char)) (w : List Char) :
    Option (List Char) :=
  lookupKV item w

/-- Fueled scanner for the loop-expansion pass of `interpret`, modelling
one global replace with `@for:(\w+)\{([\s\S]*?)\}`:  at each position, if
the literal marker `@for:` matches, followed by a nonempty word run, a
brace, a body, and the first closing brace, then the whole match is
replaced:  when the name is bound to an array, by the concatenation of the
body rendered once per record; otherwise by the match itself (the source
callback returns `match`).  On a failed match one character is emitted and
scanning continues; text emitted for a match is never rescanned. -/
def expandLoopsF (pre : List Char) (data : Data) : Nat → List Char → List Char
  | _, [] => []
  | 0, l => l
  | fuel + 1, c :: cs =>
    if begins forMarker (c :: cs) then
      if (takeWord ((c :: cs).drop 5)).1 = [] then
        c :: expandLoopsF pre data fuel cs
      else
        match (takeWord ((c :: cs).drop 5)).2 with
        | '{' :: r2 =>
          match splitBrace r2 with
          | some (body, r3) =>
            match lookupKV data (takeWord ((c :: cs).drop 5)).1 with
            | some (Val.arr items) =>
              (items.map (fun item => substTokens pre (itemF item) body)).flatten
                ++ expandLoopsF pre data fuel r3
            | _ =>
              forMarker ++ (takeWord ((c :: cs).drop 5)).1
                ++ '{' :: (body ++ '}' :: expandLoopsF pre data fuel r3)
          | none => c :: expandLoopsF pre data fuel cs
        | _ => c :: expandLoopsF pre data fuel cs
    else c :: expandLoopsF pre data fuel cs

/-- The loop-expansion pass over the whole input. -/
def expandLoops (pre : List Char) (data : Data) (l : List Char) : List Char :=
  expandLoopsF pre data l.length l

/-- A piece of the loop decomposition of a document: a literal character
or a loop block with its name and body. -/
inductive LPiece where
  | lit : Char → LPiece
  | forBlock : List Char → List Char → LPiece
deriving DecidableEq, Repr

/-- Fueled loop-block decomposition of a document, following the
specification's loop syntax `@for:<word>\x7b<body>\x7d` where the body
extends to the first closing brace. -/
def loopSplitF : Nat → List Char → List LPiece
  | _, [] => []
  | 0, l => l.map LPiece.lit
  | fuel + 1, c :: cs =>
    if begins forMarker (c :: cs) then
      if (takeWord ((c :: cs).drop 5)).1 = [] then
        LPiece.lit c :: loopSplitF fuel cs
      else
        match (takeWord ((c :: cs).drop 5)).2 with
        | '{' :: r2 =>
          match splitBrace r2 with
          | some (body, r3) =>
            LPiece.forBlock (takeWord ((c :: cs).drop 5)).1 body :: loopSplitF fuel r3
          | none => LPiece.lit c :: loopSplitF fuel cs
        | _ => LPiece.lit c :: loopSplitF fuel cs
    else LPiece.lit c :: loopSplitF fuel cs

/-- Loop-block decomposition of a whole document. -/
def loopSplit (l : List Char) : List LPiece :=
  loopSplitF l.length l

/-- Spec-side rendering of one piece of the loop decomposition: a loop
block whose name is bound to an array is replaced by the concatenation, in
array order, of the body rendered once per record; any other loop block is
kept literally (marker and braces included); literal characters are kept. -/
def renderLP (pre : List Char) (data : Data) : LPiece → List Char
  | LPiece.lit c => [c]
  | LPiece.forBlock n b =>
    match lookupKV data n with
    | some (Val.arr items) =>
      (items.map (fun item => substTokens pre (itemF item) b)).flatten
    | _ => forMarker ++ n ++ '{' :: (b ++ ['}'])

/-- The original text of one piece of the loop decomposition. -/
def origLP : LPiece → List Char
  | LPiece.lit c => [c]
  | LPiece.forBlock n b => forMarker ++ n ++ '{' :: (b ++ ['}'])

/-- Test whether an optional data value is an array. -/
def isArr : Option Val → Bool
  | some (Val.arr _) => true
  | _ => false

/-- The processor state of the `ViewHtml` class: the mutable document
string `html` and the token marker `pre` (named `prefix` in the source,
which is not a usable identifier in Lean). -/
structure ViewHtml where
  html : List Char
  pre : List Char
deriving DecidableEq, Repr

/-- The `selector` method: stores a new marker, returns the instance. -/
def ViewHtml.selector (st : ViewHtml) (p : List Char) : ViewHtml :=
  { st with pre := p }

/-- The `s` method, an alias of `selector` with the same body. -/
def ViewHtml.s (st : ViewHtml) (p : List Char) : ViewHtml :=
  { st with pre := p }

/-- The `interpret` method: first the loop-expansion replace pass updates
the document, then the simple-keyword replace pass updates it again. -/
def ViewHtml.interpret (st : ViewHtml) (data : Data) : ViewHtml :=
  let h1 := expandLoops st.pre data st.html
  { st with html := substTokens st.pre (plainF data) h1 }

/-- Key of the default language used by the fallback of `translate`. -/
def enKey : List Char := ['E', 'N']

/-- The substitution part of the `translate` method, given the loaded
dictionary:  the active per-token mapping is `dict[language]` if that key
exists, else `dict["EN"]` if present, else empty; then one replace pass
substitutes each token whose word the active mapping resolves. -/
def ViewHtml.translate (st : ViewHtml) (dict : TDict) (lang : List Char) :
    ViewHtml :=
  let translations :=
    match lookupKV dict lang with
    | some t => t
    | none =>
      match lookupKV dict enKey with
      | some t => t
      | none => []
  { st with html := substTokens st.pre (fun w => lookupKV translations w) st.html }

/-- The `translate` method including the external dictionary load: the
source first awaits `Bun.file(dictionary).json()`, so a load or parse
failure rejects the returned promise before any assignment to `this.html`.
The fallible external load is modelled by an `Except` parameter; the
result pairs the outcome of the call with the processor state after the
call. -/
def ViewHtml.translateFrom (st : ViewHtml) (src : Except (List Char) TDict)
    (lang : List Char) : Except (List Char) Unit × ViewHtml :=
  match src with
  | Except.error e => (Except.error e, st)
  | Except.ok dict => (Except.ok Unit.unit, st.translate dict lang)

/-- The `toHTML` method: returns the document, changes nothing. -/
def ViewHtml.toHTML (st : ViewHtml) : List Char :=
  st.html

/-- Spec-side description of the fallback chain of `translate`
("Select the active per-token mapping: use `dictionary[language]` if that
key exists; else use `dictionary[\"EN\"]` if present; else use an empty
mapping"). -/
def activeMap (dict : TDict) (lang : List Char) : List (List Char × List Char) :=
  match lookupKV dict lang with
  | some t => t
  | none =>
    match lookupKV dict enKey with
    | some t => t
    | none => []

end ViewHtmlModel

namespace ViewHtmlModel

theorem begins_append_self (p t : List Char) : begins p (p ++ t) = true := by
  induction p with
  | nil => rfl
  | cons c cs ih => simp [begins, ih]

theorem begins_eq_true {p l : List Char} (h : begins p l = true) :
    l = p ++ l.drop p.length := by
  induction p generalizing l with
  | nil => simp
  | cons a as ih =>
    cases l with
    | nil => simp [begins] at h
    | cons c cs =>
      simp only [begins, Bool.and_eq_true, beq_iff_eq] at h
      obtain ⟨rfl, h2⟩ := h
      simpa using ih h2

theorem begins_length {p l : List Char} (h : begins p l = true) :
    p.length ≤ l.length := by
  have h2 := congrArg List.length (begins_eq_true h)
  simp at h2
  omega

theorem begins_single {c d : Char} (rest : List Char) :
    begins [c] (d :: rest) = (c == d) := by
  simp [begins]

theorem occurs_self_append (p b : List Char) : occurs p (p ++ b) = true := by
  cases hpb : p ++ b with
  | nil =>
    have hp : p = [] := by
      cases p with
      | nil => rfl
      | cons _ _ => simp at hpb
    subst hp
    rfl
  | cons c cs =>
    show (begins p (c :: cs) || occurs p cs) = true
    rw [← hpb, begins_append_self]
    rfl

theorem occurs_append_of_occurs (a : List Char) {p b : List Char}
    (h : occurs p b = true) : occurs p (a ++ b) = true := by
  induction a with
  | nil => simpa using h
  | cons c cs ih => simp [occurs, ih]

theorem occurs_of_mem_flatten {x : List Char} {L : List (List Char)}
    (h : x ∈ L) : occurs x L.flatten = true := by
  induction L with
  | nil => cases h
  | cons y ys ih =>
    rw [List.flatten_cons]
    cases h with
    | head => exact occurs_self_append x ys.flatten
    | tail _ hmem => exact occurs_append_of_occurs y (ih hmem)

theorem takeWord_eq : ∀ l : List Char, (takeWord l).1 ++ (takeWord l).2 = l := by
  intro l
  induction l with
  | nil => rfl
  | cons c cs ih =>
    by_cases h : isWordChar c = true
    · simp [takeWord, h, ih]
    · simp [takeWord, h]

theorem takeWord_fst_word : ∀ (l : List Char), ∀ c ∈ (takeWord l).1, isWordChar c = true := by
  intro l
  induction l with
  | nil => intro c hc; cases hc
  | cons a as ih =>
    intro c hc
    by_cases h : isWordChar a = true
    · simp [takeWord, h] at hc
      rcases hc with rfl | hc
      · exact h
      · exact ih c hc
    · simp [takeWord, h] at hc

theorem takeWord_snd_head : ∀ (l : List Char) {d : Char} {r : List Char},
    (takeWord l).2 = d :: r → isWordChar d = false := by
  intro l
  induction l with
  | nil => intro d r h; simp [takeWord] at h
  | cons a as ih =>
    intro d r h
    by_cases hw : isWordChar a = true
    · simp [takeWord, hw] at h
      exact ih h
    · simp [takeWord, hw] at h
      rw [← h.1]
      simpa using hw

theorem takeWord_all : ∀ (u : List Char), (∀ c ∈ u, isWordChar c = true) →
    ∀ {d : Char}, isWordChar d = false → ∀ (z : List Char),
    takeWord (u ++ d :: z) = (u, d :: z) := by
  intro u
  induction u with
  | nil =>
    intro _ d hd z
    simp [takeWord, hd]
  | cons a as ih =>
    intro hu d hd z
    have ha : isWordChar a = true := hu a (List.mem_cons_self a as)
    have has : ∀ c ∈ as, isWordChar c = true := fun c hc => hu c (List.mem_cons_of_mem a hc)
    simp [takeWord, ha, ih has hd z]

theorem takeWord_all_word : ∀ (u : List Char), (∀ c ∈ u, isWordChar c = true) →
    takeWord u = (u, []) := by
  intro u
  induction u with
  | nil => intro _; rfl
  | cons a as ih =>
    intro hu
    have ha : isWordChar a = true := hu a (List.mem_cons_self a as)
    have has : ∀ c ∈ as, isWordChar c = true := fun c hc => hu c (List.mem_cons_of_mem a hc)
    simp [takeWord, ha, ih has]

theorem splitBrace_eq : ∀ {l b r : List Char}, splitBrace l = some (b, r) →
    l = b ++ '}' :: r ∧ '}' ∉ b := by
  intro l
  induction l with
  | nil => intro b r h; simp [splitBrace] at h
  | cons c cs ih =>
    intro b r h
    by_cases hc : c = '}'
    · subst hc
      simp [splitBrace] at h
      obtain ⟨rfl, rfl⟩ := h
      exact ⟨rfl, List.not_mem_nil _⟩
    · simp only [splitBrace, if_neg hc] at h
      cases hsb : splitBrace cs with
      | none => rw [hsb] at h; simp at h
      | some t =>
        rw [hsb] at h
        simp at h
        obtain ⟨rfl, rfl⟩ := h
        obtain ⟨h1, h2⟩ := ih (by rw [hsb])
        constructor
        · rw [List.cons_append, ← h1]
        · intro hmem
          rcases List.mem_cons.mp hmem with h3 | h3
          · exact hc h3.symm
          · exact h2 h3

theorem splitBrace_append : ∀ {b : List Char}, '}' ∉ b → ∀ (r : List Char),
    splitBrace (b ++ '}' :: r) = some (b, r) := by
  intro b
  induction b with
  | nil => intro _ r; simp [splitBrace]
  | cons c cs ih =>
    intro hb r
    have hc : ¬ c = '}' := fun h => hb (h ▸ List.mem_cons_self c cs)
    have hcs : '}' ∉ cs := fun h => hb (List.mem_cons_of_mem c h)
    simp [splitBrace, hc, ih hcs r]

theorem flatten_map_singleton : ∀ l : List Char, (l.map (fun c => [c])).flatten = l := by
  intro l
  induction l with
  | nil => rfl
  | cons c cs ih => simp [ih]

end ViewHtmlModel

namespace ViewHtmlModel

theorem tok_rest_le {pre : List Char} {c : Char} {cs : List Char}
    (hw : (takeWord ((c :: cs).drop pre.length)).1 ≠ []) :
    (takeWord ((c :: cs).drop pre.length)).2.length ≤ cs.length := by
  have h1 := congrArg List.length (takeWord_eq ((c :: cs).drop pre.length))
  rw [List.length_append] at h1
  have h2 : ((c :: cs).drop pre.length).length = (c :: cs).length - pre.length :=
    List.length_drop _ _
  have h3 : (c :: cs).length = cs.length + 1 := by simp
  have h4 : 0 < (takeWord ((c :: cs).drop pre.length)).1.length :=
    List.length_pos.mpr hw
  omega

theorem loop_rest_le {c : Char} {cs r2 body r3 : List Char}
    (ht2 : (takeWord ((c :: cs).drop 5)).2 = '{' :: r2)
    (hsb : splitBrace r2 = some (body, r3)) :
    r3.length ≤ cs.length := by
  have h1 := congrArg List.length (takeWord_eq ((c :: cs).drop 5))
  rw [List.length_append, ht2] at h1
  have h2 : ((c :: cs).drop 5).length = (c :: cs).length - 5 := List.length_drop _ _
  have h3 : (c :: cs).length = cs.length + 1 := by simp
  have h5 := congrArg List.length (splitBrace_eq hsb).1
  simp at h1 h5
  omega

theorem substTokensF_congr (pre : List Char) (f : List Char → Option (List Char)) :
    ∀ (f1 : Nat) (l : List Char) (f2 : Nat), l.length ≤ f1 → l.length ≤ f2 →
    substTokensF pre f f1 l = substTokensF pre f f2 l := by
  intro f1
  induction f1 with
  | zero =>
    intro l f2 h1 _
    have hl : l = [] := List.length_eq_zero.mp (Nat.le_zero.mp h1)
    subst hl
    simp [substTokensF]
  | succ k ih =>
    intro l f2 h1 h2
    cases l with
    | nil => simp [substTokensF]
    | cons c cs =>
      cases f2 with
      | zero => simp at h2
      | succ m =>
        have hcs1 : cs.length ≤ k := by simp at h1; omega
        have hcs2 : cs.length ≤ m := by simp at h2; omega
        simp only [substTokensF]
        split_ifs with hb hw
        · rw [ih cs m hcs1 hcs2]
        · have hr1 : (takeWord ((c :: cs).drop pre.length)).2.length ≤ k :=
            le_trans (tok_rest_le hw) hcs1
          have hr2 : (takeWord ((c :: cs).drop pre.length)).2.length ≤ m :=
            le_trans (tok_rest_le hw) hcs2
          cases hf : f ((takeWord ((c :: cs).drop pre.length)).1) with
          | some v => simp only [hf]; rw [ih _ m hr1 hr2]
          | none => simp only [hf]; rw [ih _ m hr1 hr2]
        · rw [ih cs m hcs1 hcs2]

theorem tokenizeF_congr (pre : List Char) :
    ∀ (f1 : Nat) (l : List Char) (f2 : Nat), l.length ≤ f1 → l.length ≤ f2 →
    tokenizeF pre f1 l = tokenizeF pre f2 l := by
  intro f1
  induction f1 with
  | zero =>
    intro l f2 h1 _
    have hl : l = [] := List.length_eq_zero.mp (Nat.le_zero.mp h1)
    subst hl
    simp [tokenizeF]
  | succ k ih =>
    intro l f2 h1 h2
    cases l with
    | nil => simp [tokenizeF]
    | cons c cs =>
      cases f2 with
      | zero => simp at h2
      | succ m =>
        have hcs1 : cs.length ≤ k := by simp at h1; omega
        have hcs2 : cs.length ≤ m := by simp at h2; omega
        simp only [tokenizeF]
        split_ifs with hb hw
        · rw [ih cs m hcs1 hcs2]
        · have hr1 : (takeWord ((c :: cs).drop pre.length)).2.length ≤ k :=
            le_trans (tok_rest_le hw) hcs1
          have hr2 : (takeWord ((c :: cs).drop pre.length)).2.length ≤ m :=
            le_trans (tok_rest_le hw) hcs2
          rw [ih _ m hr1 hr2]
        · rw [ih cs m hcs1 hcs2]

end ViewHtmlModel

namespace ViewHtmlModel

theorem flatten_map_renderPiece_lit (pre : List Char)
    (f : List Char → Option (List Char)) (l : List Char) :
    ((l.map Piece.lit).map (renderPiece pre f)).flatten = l := by
  rw [List.map_map]
  have h : (renderPiece pre f ∘ Piece.lit) = (fun c => [c]) := rfl
  rw [h, flatten_map_singleton]

theorem flatten_map_origPiece_lit (pre : List Char) (l : List Char) :
    ((l.map Piece.lit).map (origPiece pre)).flatten = l := by
  rw [List.map_map]
  have h : (origPiece pre ∘ Piece.lit) = (fun c => [c]) := rfl
  rw [h, flatten_map_singleton]

theorem flatten_map_renderLP_lit (pre : List Char) (data : Data) (l : List Char) :
    ((l.map LPiece.lit).map (renderLP pre data)).flatten = l := by
  rw [List.map_map]
  have h : (renderLP pre data ∘ LPiece.lit) = (fun c => [c]) := rfl
  rw [h, flatten_map_singleton]

theorem flatten_map_origLP_lit (l : List Char) :
    ((l.map LPiece.lit).map origLP).flatten = l := by
  rw [List.map_map]
  have h : (origLP ∘ LPiece.lit) = (fun c => [c]) := rfl
  rw [h, flatten_map_singleton]

theorem substTokensF_eq_tokenizeF (pre : List Char)
    (f : List Char → Option (List Char)) :
    ∀ (fuel : Nat) (l : List Char),
    substTokensF pre f fuel l
      = ((tokenizeF pre fuel l).map (renderPiece pre f)).flatten := by
  intro fuel
  induction fuel with
  | zero =>
    intro l
    cases l with
    | nil => rfl
    | cons c cs =>
      show c :: cs = (((c :: cs).map Piece.lit).map (renderPiece pre f)).flatten
      rw [flatten_map_renderPiece_lit]
  | succ k ih =>
    intro l
    cases l with
    | nil => rfl
    | cons c cs =>
      simp only [substTokensF, tokenizeF]
      split_ifs with hb hw
      · simp [renderPiece, ih cs]
      · cases hf : f ((takeWord ((c :: cs).drop pre.length)).1) with
        | some v => simp [renderPiece, hf, ih]
        | none => simp [renderPiece, hf, ih]
      · simp [renderPiece, ih cs]

theorem tokenizeF_orig (pre : List Char) :
    ∀ (fuel : Nat) (l : List Char),
    ((tokenizeF pre fuel l).map (origPiece pre)).flatten = l := by
  intro fuel
  induction fuel with
  | zero =>
    intro l
    cases l with
    | nil => rfl
    | cons c cs =>
      show (((c :: cs).map Piece.lit).map (origPiece pre)).flatten = c :: cs
      rw [flatten_map_origPiece_lit]
  | succ k ih =>
    intro l
    cases l with
    | nil => rfl
    | cons c cs =>
      simp only [tokenizeF]
      split_ifs with hb hw
      · simp [origPiece, ih cs]
      · simp only [List.map_cons, List.flatten_cons, origPiece, ih]
        rw [List.append_assoc, takeWord_eq]
        exact (begins_eq_true hb).symm
      · simp [origPiece, ih cs]

end ViewHtmlModel

namespace ViewHtmlModel

theorem expandLoopsF_eq_loopSplitF (pre : List Char) (data : Data) :
    ∀ (fuel : Nat) (l : List Char),
    expandLoopsF pre data fuel l
      = ((loopSplitF fuel l).map (renderLP pre data)).flatten := by
  intro fuel
  induction fuel with
  | zero =>
    intro l
    cases l with
    | nil => rfl
    | cons c cs =>
      show c :: cs = (((c :: cs).map LPiece.lit).map (renderLP pre data)).flatten
      rw [flatten_map_renderLP_lit]
  | succ k ih =>
    intro l
    cases l with
    | nil => rfl
    | cons c cs =>
      simp only [expandLoopsF, loopSplitF]
      split_ifs with hb hw
      · simp [renderLP, ih cs]
      · cases ht2 : (takeWord ((c :: cs).drop 5)).2 with
        | nil => simp [renderLP, ih cs]
        | cons d r2 =>
          by_cases hd : d = '{'
          · subst hd
            cases hsb : splitBrace r2 with
            | none => simp [hsb, renderLP, ih cs]
            | some br =>
              obtain ⟨body, r3⟩ := br
              cases hlk : lookupKV data ((takeWord (cs.drop 4)).1) with
              | none => simp [hsb, hlk, renderLP, ih r3]
              | some v =>
                cases v with
                | str s => simp [hsb, hlk, renderLP, ih r3]
                | arr items => simp [hsb, hlk, renderLP, ih r3]
          · simp [hd, renderLP, ih cs]
      · simp [renderLP, ih cs]

theorem loopSplitF_orig :
    ∀ (fuel : Nat) (l : List Char),
    ((loopSplitF fuel l).map origLP).flatten = l := by
  intro fuel
  induction fuel with
  | zero =>
    intro l
    cases l with
    | nil => rfl
    | cons c cs =>
      show (((c :: cs).map LPiece.lit).map origLP).flatten = c :: cs
      rw [flatten_map_origLP_lit]
  | succ k ih =>
    intro l
    cases l with
    | nil => rfl
    | cons c cs =>
      simp only [loopSplitF]
      split_ifs with hb hw
      · simp [origLP, ih cs]
      · cases ht2 : (takeWord ((c :: cs).drop 5)).2 with
        | nil => simp [origLP, ih cs]
        | cons d r2 =>
          by_cases hd : d = '{'
          · subst hd
            cases hsb : splitBrace r2 with
            | none => simp [hsb, origLP, ih cs]
            | some br =>
              obtain ⟨body, r3⟩ := br
              simp only [hsb, List.map_cons, List.flatten_cons, origLP, ih r3]
              have h1 := (splitBrace_eq hsb).1
              have h2 := takeWord_eq ((c :: cs).drop 5)
              have h3 := begins_eq_true hb
              rw [ht2] at h2
              subst h1
              calc forMarker ++ (takeWord ((c :: cs).drop 5)).1
                    ++ '{' :: (body ++ ['}']) ++ r3
                  = forMarker ++ ((takeWord ((c :: cs).drop 5)).1
                    ++ '{' :: (body ++ '}' :: r3)) := by simp
                _ = c :: cs := by rw [h2]; exact h3.symm
          · simp [hd, origLP, ih cs]
      · simp [origLP, ih cs]

end ViewHtmlModel

namespace ViewHtmlModel

theorem occurs_false_head {pat : List Char} {c : Char} {cs : List Char}
    (h : occurs pat (c :: cs) = false) :
    begins pat (c :: cs) = false ∧ occurs pat cs = false := by
  have h2 : (begins pat (c :: cs) || occurs pat cs) = false := h
  simpa using h2

theorem tokenizeF_lit (pre : List Char) :
    ∀ (fuel : Nat) (l : List Char), occurs pre l = false →
    tokenizeF pre fuel l = l.map Piece.lit := by
  intro fuel
  induction fuel with
  | zero =>
    intro l _
    cases l with
    | nil => rfl
    | cons c cs => rfl
  | succ k ih =>
    intro l h
    cases l with
    | nil => rfl
    | cons c cs =>
      obtain ⟨hb, hcs⟩ := occurs_false_head h
      simp [tokenizeF, hb, ih cs hcs]

theorem loopSplitF_lit :
    ∀ (fuel : Nat) (l : List Char), occurs forMarker l = false →
    loopSplitF fuel l = l.map LPiece.lit := by
  intro fuel
  induction fuel with
  | zero =>
    intro l _
    cases l with
    | nil => rfl
    | cons c cs => rfl
  | succ k ih =>
    intro l h
    cases l with
    | nil => rfl
    | cons c cs =>
      obtain ⟨hb, hcs⟩ := occurs_false_head h
      simp [loopSplitF, hb, ih cs hcs]

theorem substTokens_eq_flatten (pre : List Char)
    (f : List Char → Option (List Char)) (l : List Char) :
    substTokens pre f l = ((tokenize pre l).map (renderPiece pre f)).flatten :=
  substTokensF_eq_tokenizeF pre f l.length l

theorem tokenize_orig (pre : List Char) (l : List Char) :
    ((tokenize pre l).map (origPiece pre)).flatten = l :=
  tokenizeF_orig pre l.length l

theorem expandLoops_eq_flatten (pre : List Char) (data : Data) (l : List Char) :
    expandLoops pre data l = ((loopSplit l).map (renderLP pre data)).flatten :=
  expandLoopsF_eq_loopSplitF pre data l.length l

theorem loopSplit_orig (l : List Char) :
    ((loopSplit l).map origLP).flatten = l :=
  loopSplitF_orig l.length l

theorem substTokens_id_of_not_occurs {pre : List Char}
    (f : List Char → Option (List Char)) {l : List Char}
    (h : occurs pre l = false) : substTokens pre f l = l := by
  rw [substTokens_eq_flatten]
  unfold tokenize
  rw [tokenizeF_lit pre l.length l h, flatten_map_renderPiece_lit]

theorem expandLoops_id_of_not_occurs {pre : List Char} {data : Data} {l : List Char}
    (h : occurs forMarker l = false) : expandLoops pre data l = l := by
  rw [expandLoops_eq_flatten]
  unfold loopSplit
  rw [loopSplitF_lit l.length l h, flatten_map_renderLP_lit]

theorem substTokens_id_of_none {pre : List Char}
    {f : List Char → Option (List Char)} (hf : ∀ w, f w = none) (l : List Char) :
    substTokens pre f l = l := by
  rw [substTokens_eq_flatten]
  have h : (tokenize pre l).map (renderPiece pre f)
      = (tokenize pre l).map (origPiece pre) := by
    apply List.map_congr_left
    intro p _
    cases p with
    | lit c => rfl
    | tok w => simp [renderPiece, origPiece, hf w]
  rw [h, tokenize_orig]

theorem substTokens_nil (pre : List Char) (f : List Char → Option (List Char)) :
    substTokens pre f [] = [] := rfl

theorem substTokens_cons_no {pre : List Char} {c : Char} {cs : List Char}
    (f : List Char → Option (List Char))
    (hb : begins pre (c :: cs) = false) :
    substTokens pre f (c :: cs) = c :: substTokens pre f cs := by
  show substTokensF pre f (cs.length + 1) (c :: cs) = c :: substTokens pre f cs
  simp [substTokensF, hb]
  rfl

theorem substTokens_cons_noword {pre : List Char} {c : Char} {cs : List Char}
    (f : List Char → Option (List Char))
    (hb : begins pre (c :: cs) = true)
    (hw : (takeWord ((c :: cs).drop pre.length)).1 = []) :
    substTokens pre f (c :: cs) = c :: substTokens pre f cs := by
  show substTokensF pre f (cs.length + 1) (c :: cs) = c :: substTokens pre f cs
  simp [substTokensF, hb, hw]
  rfl

theorem substTokens_cons_match {pre : List Char} {c : Char} {cs : List Char}
    (f : List Char → Option (List Char))
    (hb : begins pre (c :: cs) = true)
    (hw : (takeWord ((c :: cs).drop pre.length)).1 ≠ []) :
    substTokens pre f (c :: cs)
      = renderPiece pre f (Piece.tok (takeWord ((c :: cs).drop pre.length)).1)
        ++ substTokens pre f (takeWord ((c :: cs).drop pre.length)).2 := by
  have hr : (takeWord ((c :: cs).drop pre.length)).2.length ≤ cs.length :=
    tok_rest_le hw
  show substTokensF pre f (cs.length + 1) (c :: cs) = _
  simp only [substTokensF, hb, if_true, hw, if_neg, if_false]
  have hcongr := substTokensF_congr pre f cs.length
    ((takeWord ((c :: cs).drop pre.length)).2)
    ((takeWord ((c :: cs).drop pre.length)).2.length) hr (le_refl _)
  cases hf : f ((takeWord ((c :: cs).drop pre.length)).1) with
  | some v => simp [renderPiece, hf, hcongr]; rfl
  | none => simp [renderPiece, hf, hcongr]; rfl

end ViewHtmlModel

namespace ViewHtmlModel

theorem takeWord_append_cases (u : List Char) {d : Char}
    (hd : isWordChar d = false) (y : List Char) :
    ((takeWord u).2 = [] ∧ takeWord (u ++ d :: y) = ((takeWord u).1, d :: y))
    ∨ (∃ e r, (takeWord u).2 = e :: r
        ∧ takeWord (u ++ d :: y) = ((takeWord u).1, e :: (r ++ d :: y))) := by
  cases hsnd : (takeWord u).2 with
  | nil =>
    left
    refine ⟨rfl, ?_⟩
    have h1 : (takeWord u).1 = u := by
      have h := takeWord_eq u
      rw [hsnd, List.append_nil] at h
      exact h
    have hw : ∀ ch ∈ u, isWordChar ch = true := by
      intro ch hch
      exact takeWord_fst_word u ch (h1.symm ▸ hch)
    rw [h1]
    exact takeWord_all u hw hd y
  | cons e r =>
    right
    refine ⟨e, r, rfl, ?_⟩
    have h1 := takeWord_eq u
    have hwfst : ∀ ch ∈ (takeWord u).1, isWordChar ch = true := takeWord_fst_word u
    have he : isWordChar e = false := takeWord_snd_head u hsnd
    have h2 : u ++ d :: y = (takeWord u).1 ++ e :: (r ++ d :: y) := by
      conv_lhs => rw [← h1, hsnd]
      simp
    rw [h2]
    exact takeWord_all _ hwfst he _

theorem substTokens_append_left {c : Char} (f : List Char → Option (List Char)) :
    ∀ (x : List Char), c ∉ x → ∀ (y : List Char),
    substTokens [c] f (x ++ y) = x ++ substTokens [c] f y := by
  intro x
  induction x with
  | nil => intro _ y; rfl
  | cons d ds ih =>
    intro hx y
    have hdc : ¬ c = d := fun h => hx (h ▸ List.mem_cons_self d ds)
    have hb : begins [c] (d :: (ds ++ y)) = false := by
      rw [begins_single]
      simpa using hdc
    have hds : c ∉ ds := fun h => hx (List.mem_cons_of_mem d h)
    show substTokens [c] f (d :: (ds ++ y)) = d :: (ds ++ substTokens [c] f y)
    rw [substTokens_cons_no f hb, ih hds y]

theorem substTokens_append_split_bounded {c d : Char}
    (f : List Char → Option (List Char))
    (hd : isWordChar d = false) (hdc : ¬ d = c) :
    ∀ (k : Nat) (x : List Char), x.length ≤ k → ∀ (y : List Char),
    substTokens [c] f (x ++ d :: y)
      = substTokens [c] f x ++ d :: substTokens [c] f y := by
  have hbd : ∀ z : List Char, begins [c] (d :: z) = false := by
    intro z
    rw [begins_single]
    simp
    exact fun h => hdc h.symm
  intro k
  induction k with
  | zero =>
    intro x hx y
    have hxe : x = [] := List.length_eq_zero.mp (Nat.le_zero.mp hx)
    subst hxe
    rw [List.nil_append, substTokens_cons_no f (hbd y), substTokens_nil]
    rfl
  | succ k ih =>
    intro x hx y
    cases x with
    | nil =>
      rw [List.nil_append, substTokens_cons_no f (hbd y), substTokens_nil]
      rfl
    | cons a as =>
      have has : as.length ≤ k := by simp at hx; omega
      show substTokens [c] f (a :: (as ++ d :: y)) = _
      by_cases hb : begins [c] (a :: (as ++ d :: y)) = true
      · have hca : c = a := by
          rw [begins_single] at hb
          simpa using hb
        subst hca
        have hdrop1 : ((c :: (as ++ d :: y)).drop ([c].length)) = as ++ d :: y := rfl
        have hdrop2 : ((c :: as).drop ([c].length)) = as := rfl
        have hb2 : begins [c] (c :: as) = true := by
          rw [begins_single]
          simp
        rcases takeWord_append_cases as hd y with ⟨hnil, htw⟩ | ⟨e, r, hsnd, htw⟩
        · -- the word run at the head of `as` spans all of `as`
          have hfst : (takeWord as).1 = as := by
            have h := takeWord_eq as
            rw [hnil, List.append_nil] at h
            exact h
          by_cases hasnil : as = []
          · subst hasnil
            have htwd : takeWord (d :: y) = ([], d :: y) := by
              simp [takeWord, hd]
            have hw1 : (takeWord ((c :: ([] ++ d :: y)).drop ([c].length))).1 = [] := by
              simp [htwd]
            have hw2 : (takeWord ((c :: ([] : List Char)).drop ([c].length))).1 = [] := by
              simp [takeWord]
            rw [substTokens_cons_noword f hb hw1]
            rw [show ([] : List Char) ++ d :: y = d :: y from rfl,
              substTokens_cons_no f (hbd y)]
            rw [substTokens_cons_noword f hb2 hw2, substTokens_nil]
            rfl
          · have hw1 : (takeWord ((c :: (as ++ d :: y)).drop ([c].length))).1 ≠ [] := by
              rw [hdrop1, htw, hfst]
              exact hasnil
            have hw2 : (takeWord ((c :: as).drop ([c].length))).1 ≠ [] := by
              rw [hdrop2, hfst]
              exact hasnil
            rw [substTokens_cons_match f hb hw1, substTokens_cons_match f hb2 hw2]
            rw [hdrop1, hdrop2, htw, hfst]
            have htwas : takeWord as = (as, []) := by
              have h := takeWord_eq as
              rw [Prod.ext_iff]
              exact ⟨hfst, hnil⟩
            rw [htwas]
            simp only [substTokens_nil, List.append_nil]
            rw [substTokens_cons_no f (hbd y)]
        · -- the word run at the head of `as` stops inside `as`
          by_cases hfnil : (takeWord as).1 = []
          · have hw1 : (takeWord ((c :: (as ++ d :: y)).drop ([c].length))).1 = [] := by
              rw [hdrop1, htw]
              exact hfnil
            have hw2 : (takeWord ((c :: as).drop ([c].length))).1 = [] := by
              rw [hdrop2]
              exact hfnil
            rw [substTokens_cons_noword f hb hw1, substTokens_cons_noword f hb2 hw2]
            rw [ih as has y]
            rfl
          · have hw1 : (takeWord ((c :: (as ++ d :: y)).drop ([c].length))).1 ≠ [] := by
              rw [hdrop1, htw]
              exact hfnil
            have hw2 : (takeWord ((c :: as).drop ([c].length))).1 ≠ [] := by
              rw [hdrop2]
              exact hfnil
            have herlen : (e :: r).length ≤ k := by
              have h := congrArg List.length (takeWord_eq as)
              rw [hsnd, List.length_append] at h
              have hfpos : 0 < (takeWord as).1.length := List.length_pos.mpr hfnil
              simp at h ⊢
              omega
            rw [substTokens_cons_match f hb hw1, substTokens_cons_match f hb2 hw2]
            rw [hdrop1, hdrop2, htw, hsnd]
            have hassoc : e :: (r ++ d :: y) = (e :: r) ++ d :: y := rfl
            rw [hassoc, ih (e :: r) herlen y]
            simp
      · have hbf : begins [c] (a :: (as ++ d :: y)) = false :=
          Bool.not_eq_true _ ▸ eq_false_of_ne_true hb
        have hb2 : begins [c] (a :: as) = false := by
          rw [begins_single] at hbf ⊢
          exact hbf
        rw [substTokens_cons_no f hbf, ih as has y, substTokens_cons_no f hb2]
        rfl

theorem substTokens_append_split {c d : Char}
    (f : List Char → Option (List Char))
    (hd : isWordChar d = false) (hdc : ¬ d = c) (x y : List Char) :
    substTokens [c] f (x ++ d :: y)
      = substTokens [c] f x ++ d :: substTokens [c] f y :=
  substTokens_append_split_bounded f hd hdc x.length x (le_refl _) y

end ViewHtmlModel

namespace ViewHtmlModel

theorem loopSplitF_block (fuel : Nat) (n b : List Char) (hn : n ≠ [])
    (hnw : ∀ c ∈ n, isWordChar c = true) (hbb : '}' ∉ b) :
    loopSplitF (fuel + 1) (forMarker ++ (n ++ '{' :: (b ++ ['}'])))
      = [LPiece.forBlock n b] := by
  have htw : takeWord (n ++ '{' :: (b ++ ['}'])) = (n, '{' :: (b ++ ['}'])) :=
    takeWord_all n hnw (by decide) _
  have hsb : splitBrace (b ++ '}' :: []) = some (b, []) := splitBrace_append hbb []
  have hbg : begins forMarker
      ('@' :: 'f' :: 'o' :: 'r' :: ':' :: (n ++ '{' :: (b ++ ['}']))) = true :=
    begins_append_self forMarker (n ++ '{' :: (b ++ ['}']))
  show loopSplitF (fuel + 1)
      ('@' :: 'f' :: 'o' :: 'r' :: ':' :: (n ++ '{' :: (b ++ ['}']))) = _
  simp [loopSplitF, hbg, htw, hn, hsb]

theorem loopSplit_block (n b : List Char) (hn : n ≠ [])
    (hnw : ∀ c ∈ n, isWordChar c = true) (hbb : '}' ∉ b) :
    loopSplit (forMarker ++ (n ++ '{' :: (b ++ ['}']))) = [LPiece.forBlock n b] := by
  unfold loopSplit
  have hlen : (forMarker ++ (n ++ '{' :: (b ++ ['}']))).length
      = ((forMarker ++ (n ++ '{' :: (b ++ ['}']))).length - 1) + 1 := by
    simp [forMarker]
  rw [hlen]
  exact loopSplitF_block _ n b hn hnw hbb

theorem loopSplitF_forBlock_mem :
    ∀ (fuel : Nat) (l : List Char) {n b : List Char},
    LPiece.forBlock n b ∈ loopSplitF fuel l →
    n ≠ [] ∧ (∀ c ∈ n, isWordChar c = true) ∧ '}' ∉ b := by
  intro fuel
  induction fuel with
  | zero =>
    intro l n b h
    cases l with
    | nil => simp [loopSplitF] at h
    | cons c cs => simp [loopSplitF] at h
  | succ k ih =>
    intro l n b h
    cases l with
    | nil => simp [loopSplitF] at h
    | cons c cs =>
      simp only [loopSplitF] at h
      split at h
      · split at h
        · rcases List.mem_cons.mp h with heq | hmem
          · cases heq
          · exact ih cs hmem
        · rename_i hw
          split at h
          · rename_i r2 ht2
            split at h
            · rename_i body r3 hsb
              rcases List.mem_cons.mp h with heq | hmem
              · cases heq
                exact ⟨hw, takeWord_fst_word _, (splitBrace_eq hsb).2⟩
              · exact ih _ hmem
            · rcases List.mem_cons.mp h with heq | hmem
              · cases heq
              · exact ih cs hmem
          · rcases List.mem_cons.mp h with heq | hmem
            · cases heq
            · exact ih cs hmem
      · rcases List.mem_cons.mp h with heq | hmem
        · cases heq
        · exact ih cs hmem

end ViewHtmlModel

namespace ViewHtmlModel

/-- C1, counterexample.  The claim states that after `interpret` every plain
token whose word is absent from the mapping is left byte-identical.  It fails
on documents containing a loop block: in `@for:rows\x7b$k\x7d` with mapping
`\x7brows: [\x7bk: "a"\x7d]\x7d` the word `k` is absent from the mapping, yet the token
`$k` is replaced by the record field value `a` during loop expansion. -/
theorem c1_cex :
    ((ViewHtml.mk ("@for:rows".toList ++ '{' :: ("$k".toList ++ ['}'])) "$".toList).interpret
        [("rows".toList, Val.arr [[("k".toList, "a".toList)]])]).toHTML = "a".toList
    ∧ occurs "$k".toList
        (((ViewHtml.mk ("@for:rows".toList ++ '{' :: ("$k".toList ++ ['}'])) "$".toList).interpret
            [("rows".toList, Val.arr [[("k".toList, "a".toList)]])]).toHTML) = false := by
  decide

/-- C1, amended.  For documents containing no `@for:` loop marker, after
`interpret` the document is exactly its token decomposition rendered
piecewise: every token whose word is bound to a non-array value is replaced
by that value, and every token whose word is absent or bound to an array is
kept byte-identically (second conjunct: the decomposition reassembles to the
original input, so untouched pieces are byte-identical to the input). -/
theorem c1_thm (st : ViewHtml) (data : Data)
    (h : occurs forMarker st.html = false) :
    (st.interpret data).toHTML
      = ((tokenize st.pre st.html).map (renderPiece st.pre (plainF data))).flatten
    ∧ ((tokenize st.pre st.html).map (origPiece st.pre)).flatten = st.html := by
  constructor
  · show substTokens st.pre (plainF data) (expandLoops st.pre data st.html) = _
    rw [expandLoops_id_of_not_occurs h, substTokens_eq_flatten]
  · exact tokenize_orig st.pre st.html

/-- C1, witness: the amended theorem applied at a concrete document. -/
theorem c1_wit :
    ((ViewHtml.mk "<p>$greeting, $name!</p>".toList "$".toList).interpret
        [("greeting".toList, Val.str "Hello".toList),
         ("name".toList, Val.str "Max".toList)]).toHTML
      = ((tokenize "$".toList "<p>$greeting, $name!</p>".toList).map
          (renderPiece "$".toList
            (plainF [("greeting".toList, Val.str "Hello".toList),
                     ("name".toList, Val.str "Max".toList)]))).flatten
    ∧ ((tokenize "$".toList "<p>$greeting, $name!</p>".toList).map
        (origPiece "$".toList)).flatten = "<p>$greeting, $name!</p>".toList :=
  c1_thm (ViewHtml.mk "<p>$greeting, $name!</p>".toList "$".toList)
    [("greeting".toList, Val.str "Hello".toList),
     ("name".toList, Val.str "Max".toList)] (by decide)

/-- C2, counterexample.  The claim states that the outer data mapping is
never consulted for tokens inside a loop body.  In `@for:rows\x7b$k $t\x7d` with
`rows = [\x7bk: "a"\x7d]` and outer key `t = "T"`, the token `$t` is left literal
by the per-record rendering but is then replaced from the outer mapping by
the plain-substitution phase, giving `a T` instead of the claimed `a $t`. -/
theorem c2_cex :
    ((ViewHtml.mk ("@for:rows".toList ++ '{' :: ("$k $t".toList ++ ['}'])) "$".toList).interpret
        [("rows".toList, Val.arr [[("k".toList, "a".toList)]]),
         ("t".toList, Val.str "T".toList)]).toHTML
      = "a T".toList
    ∧ occurs "$t".toList
        (((ViewHtml.mk ("@for:rows".toList ++ '{' :: ("$k $t".toList ++ ['}'])) "$".toList).interpret
            [("rows".toList, Val.arr [[("k".toList, "a".toList)]]),
             ("t".toList, Val.str "T".toList)]).toHTML) = false := by
  decide

/-- C2, amended.  `interpret` first replaces every loop block whose name is
bound to an array by the concatenation, in array order, of the body rendered
once per record (record field if present, else the token is left literal in
this phase), keeping all other pieces; loop expansion runs strictly before
the plain-substitution phase, which is then applied to the whole expanded
document — so tokens left literal inside an expanded body may afterwards be
replaced from the outer mapping.  The second conjunct states that the loop
decomposition reassembles to the input document. -/
theorem c2_thm (st : ViewHtml) (data : Data) :
    (st.interpret data).toHTML
      = substTokens st.pre (plainF data)
          (((loopSplit st.html).map (renderLP st.pre data)).flatten)
    ∧ ((loopSplit st.html).map origLP).flatten = st.html := by
  constructor
  · show substTokens st.pre (plainF data) (expandLoops st.pre data st.html) = _
    rw [expandLoops_eq_flatten]
  · exact loopSplit_orig st.html

/-- C3, counterexample.  `interpret` is not idempotent: with document `$a`
and mapping `\x7ba: "$b", b: "x"\x7d`, one application yields `$b` and a second
application yields `x`, because the substituted value `$b` is itself a token
that the second pass replaces. -/
theorem c3_cex :
    (((ViewHtml.mk "$a".toList "$".toList).interpret
        [("a".toList, Val.str "$b".toList), ("b".toList, Val.str "x".toList)]).interpret
        [("a".toList, Val.str "$b".toList), ("b".toList, Val.str "x".toList)])
      ≠ (ViewHtml.mk "$a".toList "$".toList).interpret
          [("a".toList, Val.str "$b".toList), ("b".toList, Val.str "x".toList)]
    ∧ ((ViewHtml.mk "$a".toList "$".toList).interpret
        [("a".toList, Val.str "$b".toList), ("b".toList, Val.str "x".toList)]).toHTML
      = "$b".toList
    ∧ (((ViewHtml.mk "$a".toList "$".toList).interpret
        [("a".toList, Val.str "$b".toList), ("b".toList, Val.str "x".toList)]).interpret
        [("a".toList, Val.str "$b".toList), ("b".toList, Val.str "x".toList)]).toHTML
      = "x".toList := by
  decide

/-- C3, amended.  Applying `interpret` twice with the same mapping equals
applying it once provided the once-applied document contains no occurrence
of the marker and no `@for:` occurrence — in particular whenever the
substituted values introduce no new tokens or loop markers.  (In general a
replacement value may itself contain tokens, which a second application
substitutes again, as the counterexample shows.) -/
theorem c3_thm (st : ViewHtml) (data : Data)
    (h1 : occurs st.pre ((st.interpret data).toHTML) = false)
    (h2 : occurs forMarker ((st.interpret data).toHTML) = false) :
    (st.interpret data).interpret data = st.interpret data := by
  have h1' : occurs (st.interpret data).pre ((st.interpret data).html) = false := h1
  have h2' : occurs forMarker ((st.interpret data).html) = false := h2
  show { st.interpret data with
      html := substTokens (st.interpret data).pre (plainF data)
        (expandLoops (st.interpret data).pre data (st.interpret data).html) }
    = st.interpret data
  rw [expandLoops_id_of_not_occurs h2', substTokens_id_of_not_occurs _ h1']

/-- C3, witness: the amended theorem applied at a concrete document whose
substituted values introduce no new tokens. -/
theorem c3_wit :
    (((ViewHtml.mk "<p>$a</p>".toList "$".toList).interpret
        [("a".toList, Val.str "X".toList)]).interpret
        [("a".toList, Val.str "X".toList)])
      = (ViewHtml.mk "<p>$a</p>".toList "$".toList).interpret
          [("a".toList, Val.str "X".toList)] :=
  c3_thm (ViewHtml.mk "<p>$a</p>".toList "$".toList)
    [("a".toList, Val.str "X".toList)] (by decide) (by decide)

end ViewHtmlModel

namespace ViewHtmlModel

/-- C4.  `translate` selects the active per-token mapping by the exact
fallback chain described by `activeMap` (`dictionary[language]` if that key
exists, else `dictionary["EN"]` if present, else the empty mapping) and
replaces each token by the active mapping's value for its word if present,
leaving it unchanged otherwise (first conjunct, via the piecewise rendering
of the token decomposition); with neither the requested language nor `EN`
present, the document is left completely unchanged (second conjunct). -/
theorem c4_thm (st : ViewHtml) (dict : TDict) (lang : List Char) :
    (st.translate dict lang).toHTML
      = ((tokenize st.pre st.html).map
          (renderPiece st.pre (fun w => lookupKV (activeMap dict lang) w))).flatten
    ∧ (lookupKV dict lang = none → lookupKV dict enKey = none →
        st.translate dict lang = st) := by
  constructor
  · show substTokens st.pre (fun w => lookupKV (activeMap dict lang) w) st.html = _
    exact substTokens_eq_flatten _ _ _
  · intro hl he
    show { st with
        html := substTokens st.pre (fun w => lookupKV (activeMap dict lang) w) st.html }
      = st
    have hact : activeMap dict lang = [] := by
      unfold activeMap
      rw [hl, he]
    have hf : ∀ w : List Char, lookupKV (activeMap dict lang) w = none := by
      intro w
      rw [hact]
      rfl
    rw [substTokens_id_of_none hf st.html]

/-- C4, witness: with a dictionary containing neither the requested
language `FR` nor `EN`, every token remains literal. -/
theorem c4_wit :
    (ViewHtml.mk "<h1>$greeting</h1>".toList "$".toList).translate
        [("DE".toList, [("greeting".toList, "Hallo".toList)])] "FR".toList
      = ViewHtml.mk "<h1>$greeting</h1>".toList "$".toList :=
  (c4_thm (ViewHtml.mk "<h1>$greeting</h1>".toList "$".toList)
    [("DE".toList, [("greeting".toList, "Hallo".toList)])] "FR".toList).2
    (by decide) (by decide)

/-- C5, counterexample.  The claim states that a loop block whose name is
bound to a non-array value is left byte-for-byte unchanged by `interpret`.
With document `@for:rows\x7b$rows\x7d` and mapping `\x7brows: "x"\x7d`, the
loop-expansion phase retains the block, but the plain-substitution phase
then replaces the token `$rows` inside the retained body, yielding
`@for:rows\x7bx\x7d`. -/
theorem c5_cex :
    ((ViewHtml.mk ("@for:rows".toList ++ '{' :: ("$rows".toList ++ ['}'])) "$".toList).interpret
        [("rows".toList, Val.str "x".toList)]).toHTML
      = "@for:rows".toList ++ '{' :: ("x".toList ++ ['}'])
    ∧ ("@for:rows".toList ++ '{' :: ("x".toList ++ ['}']))
        ≠ "@for:rows".toList ++ '{' :: ("$rows".toList ++ ['}']) := by
  decide

/-- C5, amended.  If a loop block's name is absent from the mapping or
bound to a non-array value, the loop-expansion phase leaves the entire
block (marker and braces included) unchanged: the block text occurs
verbatim in the phase-1 result (first conjunct), and on a document that is
exactly the block, phase 1 is the identity (second conjunct).  The whole
`interpret` call leaves the block byte-for-byte unchanged exactly when the
subsequent plain-substitution pass leaves its text fixed (third conjunct);
otherwise plain substitution may still rewrite tokens inside the retained
body, as the counterexample shows. -/
theorem c5_thm (pre : List Char) (data : Data) (doc n b : List Char)
    (hmem : LPiece.forBlock n b ∈ loopSplit doc)
    (hna : isArr (lookupKV data n) = false) :
    occurs (forMarker ++ (n ++ '{' :: (b ++ ['}']))) (expandLoops pre data doc) = true
    ∧ expandLoops pre data (forMarker ++ (n ++ '{' :: (b ++ ['}'])))
        = forMarker ++ (n ++ '{' :: (b ++ ['}']))
    ∧ (substTokens pre (plainF data) (forMarker ++ (n ++ '{' :: (b ++ ['}'])))
          = forMarker ++ (n ++ '{' :: (b ++ ['}'])) →
        (ViewHtml.mk (forMarker ++ (n ++ '{' :: (b ++ ['}']))) pre).interpret data
          = ViewHtml.mk (forMarker ++ (n ++ '{' :: (b ++ ['}']))) pre) := by
  obtain ⟨hn, hnw, hbb⟩ := loopSplitF_forBlock_mem doc.length doc hmem
  have hrender : renderLP pre data (LPiece.forBlock n b)
      = forMarker ++ (n ++ '{' :: (b ++ ['}'])) := by
    cases hlk : lookupKV data n with
    | none => simp [renderLP, hlk]
    | some v =>
      cases v with
      | str s => simp [renderLP, hlk]
      | arr items => simp [isArr, hlk] at hna
  have hexp : expandLoops pre data (forMarker ++ (n ++ '{' :: (b ++ ['}'])))
      = forMarker ++ (n ++ '{' :: (b ++ ['}'])) := by
    rw [expandLoops_eq_flatten, loopSplit_block n b hn hnw hbb]
    simp [hrender]
  refine ⟨?_, hexp, ?_⟩
  · rw [expandLoops_eq_flatten]
    have hmm : renderLP pre data (LPiece.forBlock n b)
        ∈ (loopSplit doc).map (renderLP pre data) :=
      List.mem_map_of_mem _ hmem
    rw [hrender] at hmm
    exact occurs_of_mem_flatten hmm
  · intro hsub
    show { ViewHtml.mk (forMarker ++ (n ++ '{' :: (b ++ ['}']))) pre with
        html := substTokens pre (plainF data)
          (expandLoops pre data (forMarker ++ (n ++ '{' :: (b ++ ['}'])))) }
      = ViewHtml.mk (forMarker ++ (n ++ '{' :: (b ++ ['}']))) pre
    rw [hexp, hsub]

/-- C5, witness: the amended theorem applied to a concrete document
containing a retained loop block whose body tokens are bound to no
non-array value. -/
theorem c5_wit :
    occurs (forMarker ++ ("rows".toList ++ '{' :: ("<li>$k</li>".toList ++ ['}'])))
        (expandLoops "$".toList [("rows".toList, Val.str "x".toList)]
          ("A ".toList ++ ("@for:rows".toList ++ '{' :: ("<li>$k</li>".toList ++ ['}'])) ++ " Z".toList))
      = true
    ∧ expandLoops "$".toList [("rows".toList, Val.str "x".toList)]
        (forMarker ++ ("rows".toList ++ '{' :: ("<li>$k</li>".toList ++ ['}'])))
        = forMarker ++ ("rows".toList ++ '{' :: ("<li>$k</li>".toList ++ ['}']))
    ∧ (substTokens "$".toList (plainF [("rows".toList, Val.str "x".toList)])
          (forMarker ++ ("rows".toList ++ '{' :: ("<li>$k</li>".toList ++ ['}'])))
          = forMarker ++ ("rows".toList ++ '{' :: ("<li>$k</li>".toList ++ ['}'])) →
        (ViewHtml.mk (forMarker ++ ("rows".toList ++ '{' :: ("<li>$k</li>".toList ++ ['}'])))
            "$".toList).interpret [("rows".toList, Val.str "x".toList)]
          = ViewHtml.mk (forMarker ++ ("rows".toList ++ '{' :: ("<li>$k</li>".toList ++ ['}'])))
              "$".toList) :=
  c5_thm "$".toList [("rows".toList, Val.str "x".toList)]
    ("A ".toList ++ ("@for:rows".toList ++ '{' :: ("<li>$k</li>".toList ++ ['}'])) ++ " Z".toList)
    "rows".toList "<li>$k</li>".toList (by decide) (by decide)

end ViewHtmlModel

namespace ViewHtmlModel

/-- C6, counterexample.  The claim states that `translate` leaves every
loop block untouched.  With document `@for:rows\x7b$k\x7d` and dictionary
`\x7bEN: \x7bk: "K"\x7d\x7d`, `translate` replaces the token `$k` inside the loop
body, yielding `@for:rows\x7bK\x7d`; only the marker and braces survive. -/
theorem c6_cex :
    ((ViewHtml.mk ("@for:rows".toList ++ '{' :: ("$k".toList ++ ['}'])) "$".toList).translate
        [("EN".toList, [("k".toList, "K".toList)])] "EN".toList).toHTML
      = "@for:rows".toList ++ '{' :: ("K".toList ++ ['}'])
    ∧ ("@for:rows".toList ++ '{' :: ("K".toList ++ ['}']))
        ≠ "@for:rows".toList ++ '{' :: ("$k".toList ++ ['}']) := by
  decide

/-- C6, amended.  `translate` performs no loop expansion: for any
dictionary and language, on a loop-block document the `@for:` marker, the
name and the braces are preserved verbatim and array data is never
consulted — but the prefixed tokens inside the loop body are translated
like any other tokens (the body in the result is the body after one token
substitution pass).  Stated for a single-character marker that is not a
word character and not one of the syntax characters of the block. -/
theorem c6_thm (c : Char) (n b : List Char) (dict : TDict) (lang : List Char)
    (hw : isWordChar c = false) (h1 : c ≠ '@') (h2 : c ≠ ':') (h3 : c ≠ '{')
    (h4 : c ≠ '}') (hn : ∀ x ∈ n, isWordChar x = true) :
    (ViewHtml.mk (forMarker ++ (n ++ '{' :: (b ++ ['}']))) [c]).translate dict lang
      = ViewHtml.mk (forMarker ++ (n ++ '{' ::
          (substTokens [c] (fun w => lookupKV (activeMap dict lang) w) b ++ ['}']))) [c] := by
  show ViewHtml.mk (substTokens [c] (fun w => lookupKV (activeMap dict lang) w)
      (forMarker ++ (n ++ '{' :: (b ++ ['}'])))) [c] = _
  have hgroup : forMarker ++ (n ++ '{' :: (b ++ ['}']))
      = (forMarker ++ (n ++ ['{'])) ++ (b ++ '}' :: ([] : List Char)) := by
    simp
  rw [hgroup]
  have hcx : c ∉ forMarker ++ (n ++ ['{']) := by
    intro hmemx
    simp [forMarker] at hmemx
    rcases hmemx with h | h | h | h | h | h | h
    · exact h1 h
    · rw [h] at hw; simp [isWordChar] at hw
    · rw [h] at hw; simp [isWordChar] at hw
    · rw [h] at hw; simp [isWordChar] at hw
    · exact h2 h
    · rw [hn c h] at hw; simp at hw
    · exact h3 h
  rw [substTokens_append_left _ _ hcx]
  rw [substTokens_append_split _ (by decide) (fun hh => h4 hh.symm)]
  rw [substTokens_nil]
  simp

/-- C6, witness: the amended theorem applied at a concrete loop-block
document and dictionary. -/
theorem c6_wit :
    (ViewHtml.mk (forMarker ++ ("rows".toList ++ '{' :: ("$k".toList ++ ['}']))) ['$']).translate
        [("EN".toList, [("k".toList, "K".toList)])] "EN".toList
      = ViewHtml.mk (forMarker ++ ("rows".toList ++ '{' ::
          (substTokens ['$']
            (fun w => lookupKV
              (activeMap [("EN".toList, [("k".toList, "K".toList)])] "EN".toList) w)
            "$k".toList ++ ['}']))) ['$'] :=
  c6_thm '$' "rows".toList "$k".toList [("EN".toList, [("k".toList, "K".toList)])]
    "EN".toList (by decide) (by decide) (by decide) (by decide) (by decide) (by decide)

/-- C7, counterexample.  The claim states that an empty prefix at
construction or reconfiguration is a fatal error surfaced immediately with
no partial mutation.  In the source neither the constructor nor
`selector`/`s` performs any validation: reconfiguring with the empty prefix
succeeds and the mutation is applied (the stored prefix changes). -/
theorem c7_cex :
    (ViewHtml.mk "ab".toList "$".toList).selector [] = ViewHtml.mk "ab".toList []
    ∧ ViewHtml.mk "ab".toList [] ≠ ViewHtml.mk "ab".toList "$".toList := by
  decide

/-- C7, amended.  Supplying an empty prefix at construction or at
reconfiguration (`selector`/`s`) is not an error: no validation is
performed, the empty prefix is stored as given, and the state mutation is
applied. -/
theorem c7_thm (h p : List Char) :
    ViewHtml.mk h [] = { html := h, pre := [] }
    ∧ (ViewHtml.mk h p).selector [] = { html := h, pre := [] }
    ∧ (ViewHtml.mk h p).s [] = { html := h, pre := [] } :=
  ⟨rfl, rfl, rfl⟩

/-- C8.  The substitution of `translate` runs only after the external
dictionary load has succeeded: a load or parse failure is propagated to
the caller as a failed operation and the document (indeed the whole
processor state) is left unmodified by the failed call; a successful load
proceeds to the translation substitution. -/
theorem c8_thm (st : ViewHtml) (e lang : List Char) (dict : TDict) :
    st.translateFrom (Except.error e) lang = (Except.error e, st)
    ∧ st.translateFrom (Except.ok dict) lang
        = (Except.ok Unit.unit, st.translate dict lang) :=
  ⟨rfl, rfl⟩

/-- C9.  Within a single `interpret` call, text produced by the
plain-substitution phase is not rescanned: whenever a token with word `w`
occurs in the document as seen by the plain-substitution phase and the
mapping binds `w` to a non-array value `v`, the value `v` appears verbatim
as a contiguous segment of the output of the call, even if `v` itself
contains token occurrences. -/
theorem c9_thm (st : ViewHtml) (data : Data) (w v : List Char)
    (hmem : Piece.tok w ∈ tokenize st.pre (expandLoops st.pre data st.html))
    (hv : plainF data w = some v) :
    occurs v ((st.interpret data).toHTML) = true := by
  show occurs v (substTokens st.pre (plainF data) (expandLoops st.pre data st.html)) = true
  rw [substTokens_eq_flatten]
  have hmm : renderPiece st.pre (plainF data) (Piece.tok w)
      ∈ (tokenize st.pre (expandLoops st.pre data st.html)).map
          (renderPiece st.pre (plainF data)) :=
    List.mem_map_of_mem _ hmem
  have hrw : renderPiece st.pre (plainF data) (Piece.tok w) = v := by
    simp [renderPiece, hv]
  rw [hrw] at hmm
  exact occurs_of_mem_flatten hmm

/-- C9, witness: with mapping `\x7ba: "$b", b: "x"\x7d` and document `$a`, the
replacement value `$b` appears verbatim in the output of the call instead
of being substituted in turn. -/
theorem c9_wit :
    occurs "$b".toList
        (((ViewHtml.mk "$a".toList "$".toList).interpret
          [("a".toList, Val.str "$b".toList), ("b".toList, Val.str "x".toList)]).toHTML)
      = true :=
  c9_thm (ViewHtml.mk "$a".toList "$".toList)
    [("a".toList, Val.str "$b".toList), ("b".toList, Val.str "x".toList)]
    "a".toList "$b".toList (by decide) (by decide)

/-- C10.  Frame conditions of the four operations: `interpret` and
`translate` (also through `translateFrom`) never change the prefix;
`selector` and its alias `s` never change the document; `toHTML` changes
nothing, and on a freshly constructed processor it returns exactly the
construction text. -/
theorem c10_thm (st : ViewHtml) (data : Data) (dict : TDict)
    (src : Except (List Char) TDict) (lang p t : List Char) :
    (st.interpret data).pre = st.pre
    ∧ (st.translate dict lang).pre = st.pre
    ∧ ((st.translateFrom src lang).2).pre = st.pre
    ∧ (st.selector p).html = st.html
    ∧ (st.s p).html = st.html
    ∧ (ViewHtml.mk t p).toHTML = t
    ∧ st.toHTML = st.html := by
  refine ⟨rfl, rfl, ?_, rfl, rfl, rfl, rfl⟩
  cases src with
  | error e => rfl
  | ok d => rfl

end ViewHtmlModel
